import Mathlib

/-!
# Geneve codec (geneve-rs) — shallow embedding and verification

A shallow embedding of `src/geneve.rs`: the Geneve tunnel-header codec
(fixed 8-byte header, variable-length tunnel options, zero-copy packet
wrapper).  Byte buffers are `List Nat` with each entry a byte value;
Rust `u8`/`u16` arithmetic that can wrap is written with an explicit
`% 256`.  Fallible Rust functions return `Except`; functions that can
panic (out-of-range slice indexing, which in release mode follows a
wrapping `u8` addition) return `Except Unit _`, where `.error ()` marks
the panic.  Slice-target encoders return the result **paired with the
final state of the destination buffer**, so that theorems can speak
about what was written before a failure.
-/

namespace Geneve

/-- Rust `enum GeneveErr { NotGeneve, InvalidLength }`. -/
inductive GeneveErr where
  | NotGeneve
  | InvalidLength
deriving DecidableEq

instance {ε α : Type} [DecidableEq ε] [DecidableEq α] : DecidableEq (Except ε α) :=
  fun x y =>
    match x, y with
    | .ok a, .ok b =>
      match decEq a b with
      | isTrue h => isTrue (by rw [h])
      | isFalse h => isFalse (by intro hh; cases hh; exact h rfl)
    | .error a, .error b =>
      match decEq a b with
      | isTrue h => isTrue (by rw [h])
      | isFalse h => isFalse (by intro hh; cases hh; exact h rfl)
    | .ok _, .error _ => isFalse (by intro hh; cases hh)
    | .error _, .ok _ => isFalse (by intro hh; cases hh)

/-- Rust `pub const MIN_GENEVE_HDR: usize = 8`. -/
def MIN_GENEVE_HDR : Nat := 8

/-- `buffer[i]` for an index the source has already bounds-checked; out of
range it defaults to 0 (never reached at the guarded call sites). -/
def byteAt (buffer : List Nat) (i : Nat) : Nat := buffer.getD i 0

/-- `&buffer[a..b]`: panics (`.error ()`) unless `a ≤ b ≤ buffer.len()`. -/
def sliceRange (buffer : List Nat) (a b : Nat) : Except Unit (List Nat) :=
  if a ≤ b ∧ b ≤ buffer.length then .ok ((buffer.drop a).take (b - a))
  else .error ()

/-- `buffer[start..start+src.len()].copy_from_slice(src)`.  Every call site
in the source has already checked `start + src.length ≤ buffer.length`,
so the total splice below agrees with the Rust write. -/
def copyFromSlice (buffer : List Nat) (start : Nat) (src : List Nat) : List Nat :=
  buffer.take start ++ src ++ buffer.drop (start + src.length)

/-- Rust `struct TunnelOption<'a>`; the borrowed `data: Option<&'a [u8]>`
becomes an optional byte list. -/
structure TunnelOption where
  option_class : Nat
  option_type : Nat
  c_flag : Bool
  data : Option (List Nat)
deriving DecidableEq

namespace TunnelOption

/-- `TunnelOption::MIN_OPT_SIZE`. -/
def MIN_OPT_SIZE : Nat := 4

/-- `TunnelOption::MAX_DATA_SIZE`. -/
def MAX_DATA_SIZE : Nat := 128

/-- `TunnelOption::data_len`. -/
def data_len (o : TunnelOption) : Nat :=
  match o.data with
  | none => 0
  | some d => d.length

/-- `TunnelOption::opt_len`: 4 fixed bytes plus the data length rounded up
to a multiple of 4. -/
def opt_len (o : TunnelOption) : Nat :=
  let dl := o.data_len
  let remainder_len := if dl % 4 ≠ 0 then 4 - dl % 4 else 0
  MIN_OPT_SIZE + dl + remainder_len

/-- `TunnelOption::encode_opt`: the 4-byte option header.
`opt[3] = u8::div_ceil(data_len as u8, 4)`; the `as u8` cast truncates,
hence the `% 256`. -/
def encode_opt (o : TunnelOption) : Except GeneveErr (List Nat) :=
  .ok [o.option_class / 256 % 256, o.option_class % 256,
       o.option_type ||| (if o.c_flag then 128 else 0),
       (o.data_len % 256 + 3) / 4]

/-- `TunnelOption::marshal`: append the encoding to a growable buffer. -/
def marshal (o : TunnelOption) (buffer : List Nat) : Except GeneveErr (List Nat) :=
  if o.data_len > MAX_DATA_SIZE then .error .InvalidLength
  else
    match o.encode_opt with
    | .error e => .error e
    | .ok opt =>
      let buffer := buffer ++ opt
      let remainder_len := o.opt_len - MIN_OPT_SIZE - o.data_len
      match o.data with
      | none => .ok buffer
      | some i =>
        if i.length % 4 = 0 then .ok (buffer ++ i)
        else .ok (buffer ++ i ++ List.replicate remainder_len 0)

/-- `TunnelOption::marshal_to_slice`: write into a fixed buffer, returning
the number of bytes written (or an error) together with the buffer's
final contents. -/
def marshal_to_slice (o : TunnelOption) (buffer : List Nat) :
    Except GeneveErr Nat × List Nat :=
  if o.data_len > MAX_DATA_SIZE then (.error .InvalidLength, buffer)
  else if buffer.length < o.opt_len then (.error .InvalidLength, buffer)
  else
    match o.encode_opt with
    | .error e => (.error e, buffer)
    | .ok opt =>
      let buffer := copyFromSlice buffer 0 opt
      let pos := opt.length
      match o.data with
      | none => (.ok pos, buffer)
      | some data =>
        let buffer := copyFromSlice buffer pos data
        let pos := pos + data.length
        -- the zero-fill loop runs over indices pos..opt_len, bumping pos
        let fill := o.opt_len - pos
        (.ok (pos + fill), copyFromSlice buffer pos (List.replicate fill 0))

/-- `TunnelOption::unmarshal`.  The data length is read from the low 5 bits
of byte 3, in 4-byte units. -/
def unmarshal (buffer : List Nat) : Option TunnelOption :=
  if buffer.length ≥ 4 then
    let i := (byteAt buffer 3 &&& 0x1f) * 4
    let dataField : Option (Option (List Nat)) :=
      if i = 0 then some none
      else if i ≤ buffer.length - 4 then some (some ((buffer.drop 4).take i))
      else none
    match dataField with
    | none => none
    | some d =>
      some { option_class := byteAt buffer 0 * 256 + byteAt buffer 1,
             option_type := 0x7f &&& byteAt buffer 2,
             c_flag := byteAt buffer 2 >>> 7 == 1,
             data := d }
  else none

/-- `TunnelOption::advance`: how far the header decode loop moves the
cursor past this option. -/
def advance (o : TunnelOption) : Nat :=
  match o.data with
  | some i =>
    if i.length % 4 = 0 then i.length + 4
    else (i.length + (4 - i.length % 4)) / 4
  | none => 4

end TunnelOption

/-- Rust `struct Header<'a>`. -/
structure Header where
  version : Nat
  control_flag : Bool
  critical_flag : Bool
  protocol : Nat
  vni : Nat
  options : Option (List TunnelOption)
  options_len : Nat
deriving DecidableEq

namespace Header

/-- `Header::MIN_SIZE`. -/
def MIN_SIZE : Nat := 8

/-- `Header::opt_len`: fold of `opt_len` over the option list. -/
def opt_len (h : Header) : Nat :=
  match h.options with
  | some opts => opts.foldl (fun acc o => acc + o.opt_len) 0
  | none => 0

/-- `Header::header_len`. -/
def header_len (h : Header) : Nat := MIN_SIZE + h.opt_len

/-- `Header::encode_header`: the fixed 8 bytes.  Byte 0 packs the version
into bits 6‑7 (`u8` shift, so `% 256`) and `opt_len() / 4` (truncated
`as u8`, then masked to 6 bits) into bits 0‑5; bytes 4‑6 are
`vni.to_be_bytes()[1..]`, i.e. the low 3 bytes of the big-endian `u32`. -/
def encode_header (h : Header) : List Nat :=
  [ (h.version * 64) % 256 ||| (h.opt_len / 4 % 256 &&& 0x3f),
    (match h.control_flag, h.critical_flag with
     | false, false => 0x00
     | true, false => 0x80
     | false, true => 0x40
     | true, true => 0xc0),
    h.protocol / 256 % 256, h.protocol % 256,
    h.vni / 65536 % 256, h.vni / 256 % 256, h.vni % 256,
    0 ]

/-- The option loop of `Header::marshal`: `for i in opts { i.marshal(&mut opt_buffer)?; }`. -/
def marshalOptsVec : List TunnelOption → List Nat → Except GeneveErr (List Nat)
  | [], buf => .ok buf
  | o :: rest, buf =>
    match o.marshal buf with
    | .error e => .error e
    | .ok buf => marshalOptsVec rest buf

/-- `Header::marshal`: options serialize into a scratch vector first, then
the fixed header and the scratch bytes are appended to the caller's buffer. -/
def marshal (h : Header) (buffer : List Nat) : Except GeneveErr (List Nat) :=
  let optRes : Except GeneveErr (List Nat) :=
    match h.options with
    | some opts => marshalOptsVec opts []
    | none => .ok []
  match optRes with
  | .error e => .error e
  | .ok opt_buffer => .ok (buffer ++ h.encode_header ++ opt_buffer)

/-- The option loop of `Header::marshal_to_slice`: each option writes into
the suffix `&mut buffer[pos..]` and advances `pos` by the bytes written. -/
def marshalOptsSlice : List TunnelOption → List Nat → Nat → Except GeneveErr Nat × List Nat
  | [], buffer, pos => (.ok pos, buffer)
  | o :: rest, buffer, pos =>
    match o.marshal_to_slice (buffer.drop pos) with
    | (.error e, sub) => (.error e, buffer.take pos ++ sub)
    | (.ok n, sub) => marshalOptsSlice rest (buffer.take pos ++ sub) (pos + n)

/-- `Header::marshal_to_slice`: fails up front when the destination is
smaller than `header_len()`, then writes the fixed 8 bytes and each
option in place. -/
def marshal_to_slice (h : Header) (buffer : List Nat) :
    Except GeneveErr Nat × List Nat :=
  if buffer.length < h.header_len then (.error .InvalidLength, buffer)
  else
    let buffer := copyFromSlice buffer 0 h.encode_header
    match h.options with
    | some opts => marshalOptsSlice opts buffer MIN_SIZE
    | none => (.ok MIN_SIZE, buffer)

/-- The option-parsing loop of `Header::unmarshal`:
`while let Some(k) = TunnelOption::unmarshal(&buffer[cursor..endPos]) { cursor += k.advance(); vector.push(k); }`.
`endPos` is the already-wrapped `u8` value `((buffer[0] & 0x3f) * 4 + 8) % 256`;
the slice bound check can fail, which is the Rust panic.  Termination:
the checked slice forces `cursor ≤ endPos` with `sub.length = endPos - cursor`,
a parsed option needs at least 4 bytes, and `advance()` is at least 1. -/
def parseOptions (buffer : List Nat) (endPos cursor : Nat) :
    Except Unit (List TunnelOption × Nat) :=
  match hs : sliceRange buffer cursor endPos with
  | .error _ => .error ()
  | .ok sub =>
    match hk : TunnelOption.unmarshal sub with
    | none => .ok ([], cursor)
    | some k =>
      match parseOptions buffer endPos (cursor + k.advance) with
      | .error _ => .error ()
      | .ok (rest, fin) => .ok (k :: rest, fin)
termination_by endPos - cursor
decreasing_by
  have h1 : cursor ≤ endPos ∧ endPos ≤ buffer.length ∧ sub.length = endPos - cursor := by
    unfold sliceRange at hs
    split at hs
    · next hc =>
      cases hs
      refine ⟨hc.1, hc.2, ?_⟩
      simp [List.length_take, List.length_drop]
      omega
    · cases hs
  have h2 : 4 ≤ sub.length := by
    unfold TunnelOption.unmarshal at hk
    split at hk
    · next hlen => omega
    · cases hk
  have h3 : 1 ≤ k.advance := by
    rcases hd : k.data with _ | i <;> simp only [TunnelOption.advance, hd]
    · omega
    · split <;> omega
  omega

/-- Executable mirror of the decode loop, structurally recursive on a fuel
bound; agrees with `parseOptions` whenever `endPos - cursor < fuel`
(`parseOptions_eq_fuel`), which lets concrete decodes be settled by
`decide`. -/
def parseOptionsFuel : Nat → List Nat → Nat → Nat → Except Unit (List TunnelOption × Nat)
  | 0, _, _, _ => .error ()
  | fuel + 1, buffer, endPos, cursor =>
    match sliceRange buffer cursor endPos with
    | .error _ => .error ()
    | .ok sub =>
      match TunnelOption.unmarshal sub with
      | none => .ok ([], cursor)
      | some k =>
        match parseOptionsFuel fuel buffer endPos (cursor + k.advance) with
        | .error _ => .error ()
        | .ok (rest, fin) => .ok (k :: rest, fin)

/-- `Header::unmarshal`.  Version must be 0; the declared option area
`(buffer[0] & 0x3f) * 4` is parsed only when the buffer holds that many
bytes past offset 8 (otherwise the `options` field is simply `None` —
there is no decode failure for a truncated option area); the slice upper
bound `(buffer[0] & 0x3f) * 4 + 8` is computed in `u8` and wraps at 256. -/
def unmarshal (buffer : List Nat) : Except Unit (Option (Header × Nat)) :=
  if buffer.length ≥ MIN_GENEVE_HDR then
    let cursor := MIN_GENEVE_HDR
    if byteAt buffer 0 >>> 6 ≠ 0 then .ok none
    else
      let optarea := (byteAt buffer 0 &&& 0x3f) * 4
      let optsRes : Except Unit (Option (List TunnelOption) × Nat) :=
        if optarea = 0 then .ok (none, cursor)
        else if optarea ≤ buffer.length - MIN_GENEVE_HDR then
          match parseOptions buffer ((optarea + 8) % 256) cursor with
          | .error _ => .error ()
          | .ok (vector, fin) => .ok (some vector, fin)
        else .ok (none, cursor)
      match optsRes with
      | .error _ => .error ()
      | .ok (opts, fin) =>
        .ok (some ({ version := 0,
                     control_flag := byteAt buffer 1 >>> 7 == 1,
                     critical_flag := (byteAt buffer 1 &&& 0x40) >>> 6 == 1,
                     protocol := byteAt buffer 2 * 256 + byteAt buffer 3,
                     vni := byteAt buffer 4 * 65536 + byteAt buffer 5 * 256 + byteAt buffer 6,
                     options := opts,
                     options_len := (byteAt buffer 0 &&& 0x3f) * 4 }, fin))
  else .ok none

/-- `Header.unmarshal` with the loop replaced by its fuel mirror.  The
loop's `endPos` is a `u8` value, so 256 fuel always suffices; this
version is structurally recursive throughout and `decide` can run it. -/
def unmarshalExec (buffer : List Nat) : Except Unit (Option (Header × Nat)) :=
  if buffer.length ≥ MIN_GENEVE_HDR then
    let cursor := MIN_GENEVE_HDR
    if byteAt buffer 0 >>> 6 ≠ 0 then .ok none
    else
      let optarea := (byteAt buffer 0 &&& 0x3f) * 4
      let optsRes : Except Unit (Option (List TunnelOption) × Nat) :=
        if optarea = 0 then .ok (none, cursor)
        else if optarea ≤ buffer.length - MIN_GENEVE_HDR then
          match parseOptionsFuel 256 buffer ((optarea + 8) % 256) cursor with
          | .error _ => .error ()
          | .ok (vector, fin) => .ok (some vector, fin)
        else .ok (none, cursor)
      match optsRes with
      | .error _ => .error ()
      | .ok (opts, fin) =>
        .ok (some ({ version := 0,
                     control_flag := byteAt buffer 1 >>> 7 == 1,
                     critical_flag := (byteAt buffer 1 &&& 0x40) >>> 6 == 1,
                     protocol := byteAt buffer 2 * 256 + byteAt buffer 3,
                     vni := byteAt buffer 4 * 65536 + byteAt buffer 5 * 256 + byteAt buffer 6,
                     options := opts,
                     options_len := (byteAt buffer 0 &&& 0x3f) * 4 }, fin))
  else .ok none

end Header

/-- Rust `struct GenevePacket<'a>`; `payload` is the full original buffer. -/
structure GenevePacket where
  hdr : Header
  offset : Nat
  payload : List Nat
deriving DecidableEq

namespace GenevePacket

/-- `GenevePacket::unmarshal`: length gate, then header parse; a `None`
from the header parse is `NotGeneve`. -/
def unmarshal (buffer : List Nat) : Except Unit (Except GeneveErr GenevePacket) :=
  if buffer.length ≥ MIN_GENEVE_HDR then
    match Header.unmarshal buffer with
    | .error _ => .error ()
    | .ok (some (i, cur)) => .ok (.ok { hdr := i, offset := cur, payload := buffer })
    | .ok none => .ok (.error .NotGeneve)
  else .ok (.error .InvalidLength)

/-- `GenevePacket::marshal_to_slice`: size pre-check on
`header_len() + payload_len`, then the header writes in place and the
payload tail is copied after it. -/
def marshal_to_slice (p : GenevePacket) (buffer : List Nat) :
    Except GeneveErr Nat × List Nat :=
  let payload_len := (p.payload.drop p.offset).length
  if buffer.length < p.hdr.header_len + payload_len then (.error .InvalidLength, buffer)
  else
    match p.hdr.marshal_to_slice buffer with
    | (.error e, buf) => (.error e, buf)
    | (.ok pos, buf) =>
      (.ok (pos + payload_len), copyFromSlice buf pos (p.payload.drop p.offset))

end GenevePacket

/-! ## Proof-side definitions -/

/-- The bytes `TunnelOption::marshal` appends for one option: the 4-byte
option header, then the data followed by its zero padding. -/
def TunnelOption.wireBytes (o : TunnelOption) : List Nat :=
  [o.option_class / 256 % 256, o.option_class % 256,
   o.option_type ||| (if o.c_flag then 128 else 0),
   (o.data_len % 256 + 3) / 4] ++
  (match o.data with
   | none => []
   | some d => d ++ List.replicate (o.opt_len - 4 - o.data_len) 0)

/-- The concatenated wire encodings of a list of options. -/
def wireOptsBytes : List TunnelOption → List Nat
  | [] => []
  | o :: rest => o.wireBytes ++ wireOptsBytes rest

/-- Total `opt_len` of a list of options (recursive form of the fold in
`Header::opt_len`). -/
def optsLen : List TunnelOption → Nat
  | [] => 0
  | o :: rest => o.opt_len + optsLen rest

/-- Well-formedness of an option's data for an exact header round-trip:
absent, or a positive multiple of 4 of at most 124 bytes. -/
def dataSpec : Option (List Nat) → Prop
  | none => True
  | some d => d.length % 4 = 0 ∧ 0 < d.length ∧ d.length ≤ 124

instance : (dO : Option (List Nat)) → Decidable (dataSpec dO)
  | none => .isTrue trivial
  | some _ => inferInstanceAs (Decidable (_ ∧ _ ∧ _))

/-- A `TunnelOption` whose fields fit the wire format's bit widths and whose
data `Header::unmarshal` can reproduce exactly. -/
def TunnelOption.wireValid (o : TunnelOption) : Prop :=
  o.option_class < 65536 ∧ o.option_type < 128 ∧ dataSpec o.data

instance (o : TunnelOption) : Decidable o.wireValid :=
  inferInstanceAs (Decidable (_ ∧ _ ∧ _))

/-- Well-formedness of a header's option list for an exact round-trip:
absent, or a nonempty list of wire-valid options. -/
def optionsSpec : Option (List TunnelOption) → Prop
  | none => True
  | some l => l ≠ [] ∧ ∀ o ∈ l, o.wireValid

instance : (oO : Option (List TunnelOption)) → Decidable (optionsSpec oO)
  | none => .isTrue trivial
  | some _ => inferInstanceAs (Decidable (_ ∧ _))

/-- A `Header` that survives `marshal` then `unmarshal` unchanged: version 0,
fields within their bit widths, a well-formed option list whose stored
`options_len` matches, and a total option area of at most 244 bytes
(the u8 wraparound panics on 248 and 252). -/
def Header.wireValid (h : Header) : Prop :=
  h.version = 0 ∧ h.protocol < 65536 ∧ h.vni < 16777216 ∧
  optionsSpec h.options ∧ h.options_len = h.opt_len ∧ h.opt_len ≤ 244

instance (h : Header) : Decidable h.wireValid :=
  inferInstanceAs (Decidable (_ ∧ _ ∧ _ ∧ _ ∧ _ ∧ _))

/-! ## Basic lemmas about the decode loop -/

/-- Positivity of `advance`. -/
theorem TunnelOption.advance_pos (o : TunnelOption) : 1 ≤ o.advance := by
  rcases hd : o.data with _ | i <;> simp only [TunnelOption.advance, hd]
  · omega
  · split <;> omega

/-- Length of the checked slice `buffer[a..b]`. -/
theorem sliceRange_length {buffer : List Nat} {a b : Nat} {sub : List Nat}
    (h : sliceRange buffer a b = .ok sub) :
    a ≤ b ∧ b ≤ buffer.length ∧ sub.length = b - a := by
  unfold sliceRange at h
  split at h
  · next hc =>
    cases h
    refine ⟨hc.1, hc.2, ?_⟩
    simp [List.length_take, List.length_drop]
    omega
  · cases h

/-- A successful `TunnelOption::unmarshal` consumes at least 4 bytes and its
`advance()` does not reach past the slice it parsed from. -/
theorem TunnelOption.unmarshal_advance_le {sub : List Nat} {k : TunnelOption}
    (h : TunnelOption.unmarshal sub = some k) : 4 ≤ sub.length ∧ k.advance ≤ sub.length := by
  unfold TunnelOption.unmarshal at h
  split at h
  · next hlen =>
    simp only at h
    split at h
    · cases h
    · next d hd =>
      cases h
      constructor
      · omega
      · -- the data field is `none` (advance 4) or a slice of length a
        -- positive multiple of 4 that fits in `sub.length - 4`
        split at hd
        · cases hd
          simp [TunnelOption.advance]
          omega
        · split at hd
          · next hi hle =>
            cases hd
            simp only [TunnelOption.advance]
            rw [if_pos]
            · have : ((sub.drop 4).take ((byteAt sub 3 &&& 31) * 4)).length =
                  (byteAt sub 3 &&& 31) * 4 := by
                simp [List.length_take, List.length_drop]
                omega
              omega
            · simp [List.length_take, List.length_drop]
              omega
          · cases hd
  · cases h

/-- One unfolding of the decode loop, as a plain (non-dependent) equation. -/
theorem Header.parseOptions_step (buffer : List Nat) (endPos cursor : Nat) :
    Header.parseOptions buffer endPos cursor =
      match sliceRange buffer cursor endPos with
      | .error _ => .error ()
      | .ok sub =>
        match TunnelOption.unmarshal sub with
        | none => .ok ([], cursor)
        | some k =>
          match Header.parseOptions buffer endPos (cursor + k.advance) with
          | .error _ => .error ()
          | .ok (rest, fin) => .ok (k :: rest, fin) := by
  rw [Header.parseOptions.eq_def]
  split
  · next a hs => simp [hs]
  · next sub hs =>
    simp only [hs]
    split
    · next hk => simp [hk]
    · next k hk => simp only [hk]

/-- The loop advances the cursor by at least one byte per iteration, so any
fuel exceeding `endPos - cursor` is enough for the mirror to agree with
the loop. -/
theorem Header.parseOptions_eq_fuel :
    ∀ (fuel : Nat) (buffer : List Nat) (endPos cursor : Nat),
      endPos - cursor < fuel →
      Header.parseOptions buffer endPos cursor =
        Header.parseOptionsFuel fuel buffer endPos cursor := by
  intro fuel
  induction fuel with
  | zero => intro _ _ _ h; omega
  | succ fuel ih =>
    intro buffer endPos cursor h
    rw [Header.parseOptions_step]
    show _ = Header.parseOptionsFuel (fuel + 1) buffer endPos cursor
    unfold Header.parseOptionsFuel
    rcases hs : sliceRange buffer cursor endPos with u | sub
    · rfl
    · simp only
      rcases hk : TunnelOption.unmarshal sub with _ | k
      · rfl
      · have h1 := sliceRange_length hs
        have h2 := TunnelOption.unmarshal_advance_le hk
        have h3 := TunnelOption.advance_pos k
        have ih' := ih buffer endPos (cursor + k.advance) (by omega)
        simp [ih']

/-- `Header.unmarshal` agrees with its executable mirror. -/
theorem Header.unmarshal_eq_exec (buffer : List Nat) :
    Header.unmarshal buffer = Header.unmarshalExec buffer := by
  have h := Header.parseOptions_eq_fuel 256 buffer
    (((byteAt buffer 0 &&& 0x3f) * 4 + 8) % 256) MIN_GENEVE_HDR (by omega)
  unfold Header.unmarshal Header.unmarshalExec
  simp only [h]

/-! ## Wire-encoding lemmas -/

theorem TunnelOption.wireBytes_length (o : TunnelOption) :
    o.wireBytes.length = o.opt_len := by
  obtain ⟨c, t, cf, dopt⟩ := o
  rcases dopt with _ | d <;>
    simp [TunnelOption.wireBytes, TunnelOption.opt_len, TunnelOption.data_len,
          TunnelOption.MIN_OPT_SIZE] <;> split <;> omega

theorem TunnelOption.marshal_eq (o : TunnelOption) (buffer : List Nat)
    (h : o.data_len ≤ 128) :
    o.marshal buffer = .ok (buffer ++ o.wireBytes) := by
  obtain ⟨c, t, cf, dopt⟩ := o
  rcases dopt with _ | d
  · simp [TunnelOption.marshal, TunnelOption.wireBytes, TunnelOption.encode_opt,
          TunnelOption.data_len, TunnelOption.MAX_DATA_SIZE]
  · simp only [TunnelOption.marshal, TunnelOption.wireBytes, TunnelOption.encode_opt,
               TunnelOption.data_len, TunnelOption.MAX_DATA_SIZE] at h ⊢
    rw [if_neg (by omega)]
    by_cases h4 : d.length % 4 = 0
    · rw [if_pos h4]
      have hz : ({ option_class := c, option_type := t, c_flag := cf,
                   data := some d } : TunnelOption).opt_len - 4 - d.length = 0 := by
        simp [TunnelOption.opt_len, TunnelOption.data_len, TunnelOption.MIN_OPT_SIZE, h4]
      simp [hz]
    · rw [if_neg h4]
      simp [TunnelOption.MIN_OPT_SIZE]

/-! ## Claim C1 — decode can panic on a maximal declared option area -/

set_option maxRecDepth 100000

/-- C1: the claim that `Header::unmarshal` and `GenevePacket::unmarshal`
never panic is false.  On a 260-byte buffer whose first byte declares the
maximal option area (63 × 4 = 252 bytes), the `u8` slice bound
`(buffer[0] & 0x3f) * 4 + 8` wraps to 4 and the option loop slices
`buffer[8..4]`, an out-of-range slice: both decoders reach the panic
marker instead of returning a value or a reported failure. -/
theorem c1_decode_panics_on_max_option_area :
    Header.unmarshal (0x3f :: List.replicate 259 0) = .error () ∧
    GenevePacket.unmarshal (0x3f :: List.replicate 259 0) = .error () := by
  constructor
  · rw [Header.unmarshal_eq_exec]
    decide
  · unfold GenevePacket.unmarshal
    rw [Header.unmarshal_eq_exec]
    decide

/-! ## Claim C3 — `advance()` disagrees with `opt_len()` -/

/-- C3: the claim `advance() = opt_len()` for every option fails when the
data length is not a multiple of 4: for 2 bytes of data the code computes
`(2 + 2) / 4 = 1` while `opt_len()` is 8, so the two disagree. -/
theorem c3_advance_ne_opt_len :
    TunnelOption.advance ⟨0xffff, 0x0a, false, some [0x00, 0x01]⟩ = 1 ∧
    TunnelOption.opt_len ⟨0xffff, 0x0a, false, some [0x00, 0x01]⟩ = 8 ∧
    TunnelOption.advance ⟨0xffff, 0x0a, false, some [0x00, 0x01]⟩ ≠
      TunnelOption.opt_len ⟨0xffff, 0x0a, false, some [0x00, 0x01]⟩ := by decide

/-! ## Claim C2 — option round-trip -/

/-- Bit-level facts about the type/flag byte and the masked length fields,
settled by enumeration over the (bounded) byte values. -/
theorem bitFacts :
    (∀ t < 128, 127 &&& (t ||| 128) = t ∧ (t ||| 128) >>> 7 = 1 ∧
       127 &&& t = t ∧ t >>> 7 = 0) ∧
    (∀ a < 32, a &&& 31 = a) ∧ (∀ a < 64, a &&& 63 = a) := by decide

/-- C2 (counterexample): `decode(encode(o)) = o` with padding excluded
fails.  Two bytes of data come back as four (the zero padding is part of
the decoded slice); 125 bytes of data encode a length byte of 32 whose
low 5 bits are 0, so the data comes back absent; a type with bit 7 set
comes back as type 0 with `c_flag` set; `Some` empty data comes back as
`None`. -/
theorem c2_roundtrip_cx :
    (TunnelOption.marshal ⟨0xffff, 0x0a, false, some [0x00, 0x01]⟩ [] =
       .ok [0xff, 0xff, 0x0a, 0x01, 0x00, 0x01, 0x00, 0x00] ∧
     TunnelOption.unmarshal [0xff, 0xff, 0x0a, 0x01, 0x00, 0x01, 0x00, 0x00] =
       some ⟨0xffff, 0x0a, false, some [0x00, 0x01, 0x00, 0x00]⟩ ∧
     (⟨0xffff, 0x0a, false, some [0x00, 0x01, 0x00, 0x00]⟩ : TunnelOption) ≠
       ⟨0xffff, 0x0a, false, some [0x00, 0x01]⟩) ∧
    (TunnelOption.marshal ⟨1, 2, false, some (List.replicate 125 7)⟩ [] =
       .ok ([0, 1, 2, 32] ++ List.replicate 125 7 ++ [0, 0, 0]) ∧
     TunnelOption.unmarshal ([0, 1, 2, 32] ++ List.replicate 125 7 ++ [0, 0, 0]) =
       some ⟨1, 2, false, none⟩) ∧
    (TunnelOption.marshal ⟨0, 0x80, false, none⟩ [] = .ok [0, 0, 0x80, 0] ∧
     TunnelOption.unmarshal [0, 0, 0x80, 0] = some ⟨0, 0, true, none⟩) ∧
    (TunnelOption.marshal ⟨0, 0, false, some []⟩ [] = .ok [0, 0, 0, 0] ∧
     TunnelOption.unmarshal [0, 0, 0, 0] = some ⟨0, 0, false, none⟩) := by decide

/-- C2 (amended): for every option whose `option_class` fits in 16 bits,
whose `option_type` fits in 7 bits, and whose data is absent or 1–124
bytes long, decoding the encoding succeeds and yields the option with its
data zero-padded to the next multiple of 4 — exactly the original option
when the data length is a multiple of 4 (the claim's further reach fails:
padding is not excluded from the decoded data, and data lengths 125–128
are lost to the 5-bit length mask on decode). -/
theorem c2_option_roundtrip (o : TunnelOption)
    (hc : o.option_class < 65536) (ht : o.option_type < 128)
    (hd : o.data = none ∨ ∃ d, o.data = some d ∧ 1 ≤ d.length ∧ d.length ≤ 124) :
    o.marshal [] = .ok o.wireBytes ∧
    TunnelOption.unmarshal o.wireBytes =
      some { option_class := o.option_class, option_type := o.option_type,
             c_flag := o.c_flag,
             data := o.data.map
               (fun d => d ++ List.replicate (o.opt_len - 4 - d.length) 0) } := by
  have hdl : o.data_len ≤ 128 := by
    rcases hd with h | ⟨d, hdd, h1, h2⟩
    · simp [TunnelOption.data_len, h]
    · simp [TunnelOption.data_len, hdd]; omega
  refine ⟨by simpa using TunnelOption.marshal_eq o [] hdl, ?_⟩
  obtain ⟨c, t, cf, dopt⟩ := o
  simp only at hc ht
  have hbyte2 : 127 &&& (t ||| if cf then 128 else 0) = t ∧
      (((t ||| if cf then 128 else 0) >>> 7 == 1) = cf) := by
    rcases cf with _ | _
    · simpa using ⟨((bitFacts.1 t ht).2.2.1), by simp [(bitFacts.1 t ht).2.2.2]⟩
    · exact ⟨(bitFacts.1 t ht).1, by simp [(bitFacts.1 t ht).2.1]⟩
  have hcsplit : c / 256 % 256 * 256 + c % 256 = c := by omega
  rcases hd with hnone | ⟨d, hdd, h1, h2⟩
  · simp only at hnone
    subst hnone
    simp only [TunnelOption.wireBytes, TunnelOption.data_len, TunnelOption.unmarshal,
               byteAt, Option.map]
    norm_num
    exact ⟨hcsplit, hbyte2.1, hbyte2.2⟩
  · simp only at hdd
    subst hdd
    -- the length byte and the padded data length
    have hb3 : d.length % 256 = d.length := Nat.mod_eq_of_lt (by omega)
    have hb3le : (d.length + 3) / 4 < 32 := by omega
    have hmask := bitFacts.2.1 _ hb3le
    have hpad : (⟨c, t, cf, some d⟩ : TunnelOption).opt_len - 4 - d.length =
        (if d.length % 4 ≠ 0 then 4 - d.length % 4 else 0) := by
      simp only [TunnelOption.opt_len, TunnelOption.data_len, TunnelOption.MIN_OPT_SIZE]
      omega
    have hi : (d.length + 3) / 4 * 4 =
        d.length + ((⟨c, t, cf, some d⟩ : TunnelOption).opt_len - 4 - d.length) := by
      rw [hpad]; split <;> omega
    simp only [TunnelOption.wireBytes, TunnelOption.data_len, TunnelOption.unmarshal,
               byteAt, hb3, Option.map]
    have hlen : ([c / 256 % 256, c % 256, t ||| if cf then 128 else 0, (d.length + 3) / 4] ++
        (d ++ List.replicate ((⟨c, t, cf, some d⟩ : TunnelOption).opt_len - 4 - d.length) 0)).length =
        4 + (d.length + ((⟨c, t, cf, some d⟩ : TunnelOption).opt_len - 4 - d.length)) := by
      simp; omega
    rw [if_pos (by rw [hlen]; omega)]
    simp only [List.cons_append, List.nil_append, List.getD_cons_succ, List.getD_cons_zero]
    rw [hmask, hi]
    rw [if_neg (by omega)]
    have hfit : d.length + ((⟨c, t, cf, some d⟩ : TunnelOption).opt_len - 4 - d.length) ≤
        (d ++ List.replicate ((⟨c, t, cf, some d⟩ : TunnelOption).opt_len - 4 - d.length) 0).length := by
      simp
    rw [if_pos (by simp only [List.length_cons, List.length_append]; simp <;> omega)]
    simp only [List.drop_succ_cons, List.drop_zero]
    rw [List.take_of_length_le (by simp)]
    rw [hcsplit, hbyte2.1, hbyte2.2]

/-- C2 (witness): the amended round-trip at a concrete option with 3 bytes
of data — the decode returns the data padded with one zero byte. -/
theorem c2_option_roundtrip_witness :
    TunnelOption.marshal ⟨0x1234, 5, true, some [1, 2, 3]⟩ [] =
      .ok (TunnelOption.wireBytes ⟨0x1234, 5, true, some [1, 2, 3]⟩) ∧
    TunnelOption.unmarshal (TunnelOption.wireBytes ⟨0x1234, 5, true, some [1, 2, 3]⟩) =
      some ⟨0x1234, 5, true, some [1, 2, 3, 0]⟩ := by
  have h := c2_option_roundtrip ⟨0x1234, 5, true, some [1, 2, 3]⟩ (by decide) (by decide)
    (Or.inr ⟨[1, 2, 3], rfl, by decide, by decide⟩)
  exact ⟨h.1, by rw [h.2]; decide⟩

/-! ## Claim C9 — encoding ignores the stored `options_len` field -/

/-- C9: two headers that differ only in the stored `options_len` field
encode to identical bytes, under both `Header::marshal` and
`Header::marshal_to_slice`: the length bits of byte 0 are recomputed from
the option list via `opt_len()`, and `options_len` is never read. -/
theorem c9_encoding_ignores_options_len (h : Header) (l : Nat) (buffer : List Nat) :
    Header.marshal { h with options_len := l } buffer = Header.marshal h buffer ∧
    Header.marshal_to_slice { h with options_len := l } buffer =
      Header.marshal_to_slice h buffer := by
  obtain ⟨v, cf, crf, p, vni, opts, ol⟩ := h
  exact ⟨rfl, rfl⟩

/-! ## Claim C10 — `vni` truncation to 24 bits -/

/-- If every entry of the buffer is a byte, every `byteAt` read is a byte. -/
theorem byteAt_lt_256 {buffer : List Nat} (hb : ∀ b ∈ buffer, b < 256) (i : Nat) :
    byteAt buffer i < 256 := by
  unfold byteAt
  rcases h : buffer[i]? with _ | b
  · simp [List.getD, h]
  · have hmem : b ∈ buffer := by
      have := List.getElem?_eq_some.mp h
      rcases this with ⟨hlt, hget⟩
      exact hget ▸ List.getElem_mem hlt
    have := hb b hmem
    simp [List.getD, h]
    omega

/-- Inversion of a successful `Header::unmarshal`: what the returned
header's fields and cursor must be. -/
theorem Header.unmarshal_ok_inv {buffer : List Nat} {h : Header} {cur : Nat}
    (he : Header.unmarshal buffer = .ok (some (h, cur))) :
    buffer.length ≥ 8 ∧ byteAt buffer 0 >>> 6 = 0 ∧
    h.version = 0 ∧
    h.control_flag = (byteAt buffer 1 >>> 7 == 1) ∧
    h.critical_flag = ((byteAt buffer 1 &&& 0x40) >>> 6 == 1) ∧
    h.protocol = byteAt buffer 2 * 256 + byteAt buffer 3 ∧
    h.vni = byteAt buffer 4 * 65536 + byteAt buffer 5 * 256 + byteAt buffer 6 ∧
    h.options_len = (byteAt buffer 0 &&& 63) * 4 ∧
    ((h.options = none ∧ cur = 8 ∧
        ((byteAt buffer 0 &&& 63) * 4 = 0 ∨
         (byteAt buffer 0 &&& 63) * 4 > buffer.length - 8)) ∨
     (∃ opts, h.options = some opts ∧
        Header.parseOptions buffer (((byteAt buffer 0 &&& 63) * 4 + 8) % 256) 8 =
          .ok (opts, cur) ∧
        (byteAt buffer 0 &&& 63) * 4 ≠ 0 ∧
        (byteAt buffer 0 &&& 63) * 4 ≤ buffer.length - 8)) := by
  unfold Header.unmarshal at he
  split at he
  · next hlen =>
    split at he
    · next hv => cases he
    · next hv =>
      simp only [MIN_GENEVE_HDR, ne_eq, not_not] at hv hlen he ⊢
      refine ⟨hlen, hv, ?_⟩
      by_cases h0 : (byteAt buffer 0 &&& 63) * 4 = 0
      · rw [if_pos h0] at he
        simp only at he
        cases he
        simp_all
      · rw [if_neg h0] at he
        by_cases h8 : (byteAt buffer 0 &&& 63) * 4 ≤ buffer.length - 8
        · rw [if_pos h8] at he
          rcases hp : Header.parseOptions buffer
              (((byteAt buffer 0 &&& 63) * 4 + 8) % 256) 8 with u | ⟨vec, fin⟩
          · rw [hp] at he; cases he
          · rw [hp] at he
            simp only at he
            cases he
            exact ⟨rfl, rfl, rfl, rfl, rfl, rfl,
              Or.inr ⟨vec, rfl, rfl, h0, h8⟩⟩
        · rw [if_neg h8] at he
          simp only at he
          cases he
          exact ⟨rfl, rfl, rfl, rfl, rfl, rfl, Or.inl ⟨rfl, rfl, Or.inr (by omega)⟩⟩
  · cases he

/-- C10: `Header::marshal` succeeds or fails independently of `vni`
(any 32-bit value is accepted); the encoder emits exactly the low
24 bits of `vni`, big-endian, as bytes 4–6; and every header a
successful `Header::unmarshal` returns (from a byte-valued buffer) has
`vni < 2^24`. -/
theorem c10_vni_truncation :
    (∀ (h : Header) (v : Nat) (buffer : List Nat),
       (Header.marshal { h with vni := v } buffer).isOk =
         (Header.marshal h buffer).isOk) ∧
    (∀ h : Header, (h.encode_header.drop 4).take 3 =
       [h.vni % 16777216 / 65536, h.vni % 16777216 / 256 % 256,
        h.vni % 16777216 % 256]) ∧
    (∀ (buffer : List Nat) (h : Header) (cur : Nat),
       (∀ b ∈ buffer, b < 256) →
       Header.unmarshal buffer = .ok (some (h, cur)) → h.vni < 16777216) := by
  refine ⟨?_, ?_, ?_⟩
  · intro h v buffer
    obtain ⟨vv, cf, crf, p, vn, opts, ol⟩ := h
    simp only [Header.marshal]
    rcases opts with _ | l
    · rfl
    · simp only
      rcases hm : Header.marshalOptsVec l [] with e | b <;>
        simp [hm, Except.isOk, Except.toBool]
  · intro h
    simp only [Header.encode_header, List.drop_succ_cons, List.drop_zero,
               List.take_succ_cons, List.take_zero]
    have h1 : h.vni / 65536 % 256 = h.vni % 16777216 / 65536 := by omega
    have h2 : h.vni / 256 % 256 = h.vni % 16777216 / 256 % 256 := by omega
    have h3 : h.vni % 256 = h.vni % 16777216 % 256 := by omega
    rw [h1, h2, h3]
  · intro buffer h cur hb he
    have hv := (Header.unmarshal_ok_inv he).2.2.2.2.2.2.1
    have h4 := byteAt_lt_256 hb 4
    have h5 := byteAt_lt_256 hb 5
    have h6 := byteAt_lt_256 hb 6
    omega

/-- C10 (witness): applied to the 8-byte header `[0, 0, 0, 0, 0xaa, 0xaa, 0xee, 0]`,
whose decode yields `vni = 0x00aaaaee < 2^24`. -/
theorem c10_vni_truncation_witness :
    (∀ b ∈ [0, 0, 0, 0, 0xaa, 0xaa, 0xee, 0], b < 256) ∧
    Header.unmarshal [0, 0, 0, 0, 0xaa, 0xaa, 0xee, 0] =
      .ok (some ({ version := 0, control_flag := false, critical_flag := false,
                   protocol := 0, vni := 0x00aaaaee, options := none,
                   options_len := 0 }, 8)) ∧
    (0x00aaaaee : Nat) < 16777216 := by
  have hdec : Header.unmarshal [0, 0, 0, 0, 0xaa, 0xaa, 0xee, 0] =
      .ok (some ({ version := 0, control_flag := false, critical_flag := false,
                   protocol := 0, vni := 0x00aaaaee, options := none,
                   options_len := 0 }, 8)) := by
    rw [Header.unmarshal_eq_exec]; decide
  exact ⟨by decide, hdec,
    c10_vni_truncation.2.2 [0, 0, 0, 0, 0xaa, 0xaa, 0xee, 0] _ 8 (by decide) hdec⟩

/-! ## The decode loop always succeeds on an in-bounds option area -/

/-- An option decoded from a slice has `opt_len() = advance()`: its data
length is `(byte3 & 0x1f) * 4`, a multiple of 4, so the broken rounding
branch of `advance` is never taken on decoded options. -/
theorem TunnelOption.unmarshal_opt_len_eq_advance {sub : List Nat} {k : TunnelOption}
    (h : TunnelOption.unmarshal sub = some k) : k.opt_len = k.advance := by
  unfold TunnelOption.unmarshal at h
  split at h
  · next hlen =>
    simp only at h
    split at h
    · cases h
    · next d hd =>
      cases h
      split at hd
      · cases hd
        simp [TunnelOption.opt_len, TunnelOption.advance, TunnelOption.data_len,
              TunnelOption.MIN_OPT_SIZE]
      · split at hd
        · next hi hle =>
          cases hd
          have hlen4 : ((sub.drop 4).take ((byteAt sub 3 &&& 31) * 4)).length =
              (byteAt sub 3 &&& 31) * 4 := by
            simp [List.length_take, List.length_drop]
            omega
          simp only [TunnelOption.opt_len, TunnelOption.advance, TunnelOption.data_len,
                     TunnelOption.MIN_OPT_SIZE, hlen4]
          rw [if_neg (by omega), if_pos (by omega)]
          omega
        · cases hd
  · cases h

/-- When the cursor starts inside the bounds, the decode loop cannot panic:
it returns the greedily parsed options and a final cursor
`fin = cursor + optsLen opts ≤ endPos` (fuel version). -/
theorem Header.parseOptionsFuel_spec :
    ∀ (fuel : Nat) (buffer : List Nat) (endPos cursor : Nat),
      endPos - cursor < fuel → cursor ≤ endPos → endPos ≤ buffer.length →
      ∃ opts fin, Header.parseOptionsFuel fuel buffer endPos cursor = .ok (opts, fin) ∧
        cursor ≤ fin ∧ fin ≤ endPos ∧ fin = cursor + optsLen opts := by
  intro fuel
  induction fuel with
  | zero => intro _ _ _ h _ _; omega
  | succ fuel ih =>
    intro buffer endPos cursor hf hc he
    unfold Header.parseOptionsFuel
    have hsr : sliceRange buffer cursor endPos =
        .ok ((buffer.drop cursor).take (endPos - cursor)) := by
      unfold sliceRange
      rw [if_pos ⟨hc, he⟩]
    rw [hsr]
    simp only
    rcases hk : TunnelOption.unmarshal ((buffer.drop cursor).take (endPos - cursor)) with _ | k
    · exact ⟨[], cursor, rfl, Nat.le_refl _, hc, by simp [optsLen]⟩
    · have hsub : ((buffer.drop cursor).take (endPos - cursor)).length = endPos - cursor := by
        simp [List.length_take, List.length_drop]
        omega
      have h2 := TunnelOption.unmarshal_advance_le hk
      have h3 := TunnelOption.advance_pos k
      have hol := TunnelOption.unmarshal_opt_len_eq_advance hk
      obtain ⟨opts, fin, hrec, hcf, hfe, hsum⟩ :=
        ih buffer endPos (cursor + k.advance) (by omega) (by omega) he
      refine ⟨k :: opts, fin, by simp only [hrec], by omega, hfe, ?_⟩
      simp only [optsLen]
      omega

/-- The same, for the loop itself. -/
theorem Header.parseOptions_spec (buffer : List Nat) (endPos cursor : Nat)
    (hc : cursor ≤ endPos) (he : endPos ≤ buffer.length) :
    ∃ opts fin, Header.parseOptions buffer endPos cursor = .ok (opts, fin) ∧
      cursor ≤ fin ∧ fin ≤ endPos ∧ fin = cursor + optsLen opts := by
  rw [Header.parseOptions_eq_fuel (endPos - cursor + 1) buffer endPos cursor (by omega)]
  exact Header.parseOptionsFuel_spec _ buffer endPos cursor (by omega) hc he

/-- A decode loop that returns at all was called with in-bounds positions. -/
theorem Header.parseOptions_bounds {buffer : List Nat} {endPos cursor : Nat}
    {opts : List TunnelOption} {fin : Nat}
    (h : Header.parseOptions buffer endPos cursor = .ok (opts, fin)) :
    cursor ≤ endPos ∧ endPos ≤ buffer.length := by
  by_contra hcon
  rw [Header.parseOptions_step] at h
  unfold sliceRange at h
  rw [if_neg hcon] at h
  cases h

/-- `Header::opt_len`'s fold equals the recursive sum `optsLen`. -/
theorem optsLen_eq_foldl :
    ∀ (l : List TunnelOption) (a : Nat),
      l.foldl (fun acc o => acc + o.opt_len) a = a + optsLen l := by
  intro l
  induction l with
  | nil => intro a; simp [optsLen]
  | cons o rest ih =>
    intro a
    simp only [List.foldl_cons, optsLen]
    rw [ih]
    omega

/-- The declared option area is at most 252 bytes (6-bit field times 4). -/
theorem optarea_le_252 (b : Nat) : (b &&& 63) * 4 ≤ 252 := by
  have hle : b &&& 63 ≤ 63 := Nat.and_le_right
  omega

/-! ## Claim C7 — decoded-header invariant -/

/-- C7 (counterexample): the 8-byte buffer `[0x04, 0, 0, 0, 0, 0, 0, 0]`
declares a 16-byte option area that the buffer does not contain; decode
nevertheless succeeds with `options = None` and `options_len = 16`, so
`options_len` is not the option sum (0) and the cursor 8 is not
`8 + options_len`. -/
theorem c7_invariant_cx :
    Header.unmarshal [0x04, 0, 0, 0, 0, 0, 0, 0] =
      .ok (some ({ version := 0, control_flag := false, critical_flag := false,
                   protocol := 0, vni := 0, options := none, options_len := 16 }, 8)) ∧
    (16 : Nat) ≠ 0 ∧ (8 : Nat) ≠ 8 + 16 := by
  refine ⟨?_, by decide, by decide⟩
  rw [Header.unmarshal_eq_exec]
  decide

/-- C7 (amended): every header a successful `Header::unmarshal` returns
satisfies `options_len = (byte0 & 0x3f) * 4 ≤ 252` and
`cursor = 8 + opt_len()` where `opt_len()` is the sum over the decoded
options (0 when absent); that sum is at most `options_len` but can be
smaller — `options_len = sum` and `cursor = 8 + options_len` hold only
when the declared area is present and parses completely. -/
theorem c7_header_invariant (buffer : List Nat) (h : Header) (cur : Nat)
    (he : Header.unmarshal buffer = .ok (some (h, cur))) :
    h.options_len ≤ 252 ∧ h.opt_len ≤ h.options_len ∧ 8 ≤ cur ∧
    cur = 8 + h.opt_len ∧ cur ≤ 8 + h.options_len ∧
    (h.options = none → h.opt_len = 0 ∧ cur = 8) := by
  have hinv := Header.unmarshal_ok_inv he
  have hol : h.options_len = (byteAt buffer 0 &&& 63) * 4 := hinv.2.2.2.2.2.2.2.1
  have h252 : h.options_len ≤ 252 := by rw [hol]; exact optarea_le_252 _
  rcases hinv.2.2.2.2.2.2.2.2 with ⟨hnone, hcur, _⟩ | ⟨opts, hsome, hp, h0, h8⟩
  · have hz : h.opt_len = 0 := by simp [Header.opt_len, hnone]
    subst hcur
    exact ⟨h252, by omega, by omega, by omega, by omega, fun _ => ⟨hz, rfl⟩⟩
  · have hb := Header.parseOptions_bounds hp
    have hend : ((byteAt buffer 0 &&& 63) * 4 + 8) % 256 = (byteAt buffer 0 &&& 63) * 4 + 8 := by
      have := optarea_le_252 (byteAt buffer 0)
      have h8le : 8 ≤ ((byteAt buffer 0 &&& 63) * 4 + 8) % 256 := hb.1
      omega
    rw [hend] at hp hb
    obtain ⟨opts', fin', hp', hc', he', hsum'⟩ :=
      Header.parseOptions_spec buffer ((byteAt buffer 0 &&& 63) * 4 + 8) 8
        (by omega) hb.2
    rw [hp'] at hp
    injection hp with hpair
    injection hpair with hopts hfin
    have hlensum : h.opt_len = optsLen opts := by
      simp [Header.opt_len, hsome, optsLen_eq_foldl]
    subst hopts hfin
    refine ⟨h252, by omega, by omega, by omega, by omega, ?_⟩
    intro hcontra
    rw [hsome] at hcontra
    cases hcontra

/-- C7 (witness): the amended invariant at the 24-byte two-option test
vector: `options_len = 16`, summed `opt_len` 16, cursor 24. -/
theorem c7_header_invariant_witness :
    Header.unmarshal [0x04, 0x00, 0x86, 0xdd, 0xaa, 0xaa, 0xee, 0x00,
        0xff, 0xff, 0x0a, 0x01, 0x00, 0x01, 0x00, 0x00,
        0xff, 0xff, 0x0b, 0x01, 0x00, 0x02, 0x00, 0x00] =
      .ok (some ({ version := 0, control_flag := false, critical_flag := false,
                   protocol := 0x86dd, vni := 0x00aaaaee,
                   options := some [⟨0xffff, 0x0a, false, some [0x00, 0x01, 0x00, 0x00]⟩,
                                    ⟨0xffff, 0x0b, false, some [0x00, 0x02, 0x00, 0x00]⟩],
                   options_len := 16 }, 24)) ∧
    (16 : Nat) ≤ 252 ∧ (24 : Nat) = 8 +
      Header.opt_len { version := 0, control_flag := false, critical_flag := false,
                       protocol := 0x86dd, vni := 0x00aaaaee,
                       options := some [⟨0xffff, 0x0a, false, some [0x00, 0x01, 0x00, 0x00]⟩,
                                        ⟨0xffff, 0x0b, false, some [0x00, 0x02, 0x00, 0x00]⟩],
                       options_len := 16 } := by
  have hdec : Header.unmarshal [0x04, 0x00, 0x86, 0xdd, 0xaa, 0xaa, 0xee, 0x00,
      0xff, 0xff, 0x0a, 0x01, 0x00, 0x01, 0x00, 0x00,
      0xff, 0xff, 0x0b, 0x01, 0x00, 0x02, 0x00, 0x00] =
      .ok (some ({ version := 0, control_flag := false, critical_flag := false,
                   protocol := 0x86dd, vni := 0x00aaaaee,
                   options := some [⟨0xffff, 0x0a, false, some [0x00, 0x01, 0x00, 0x00]⟩,
                                    ⟨0xffff, 0x0b, false, some [0x00, 0x02, 0x00, 0x00]⟩],
                   options_len := 16 }, 24)) := by
    rw [Header.unmarshal_eq_exec]
    decide
  have hi := c7_header_invariant _ _ _ hdec
  exact ⟨hdec, hi.1, hi.2.2.2.1⟩

/-! ## Claim C4 — option-area consumption -/

/-- C4 (counterexample): in the 12-byte buffer
`[0x01, 0, 0, 0, 0, 0, 0, 0, 0, 0, 0, 0x01]` the declared 4-byte option
area is fully present, but the single option inside declares 4 data bytes
that reach past the area: the claim says decode must fail or consume the
area exactly (cursor 12), yet decode succeeds with zero options and
cursor 8. -/
theorem c4_consumption_cx :
    Header.unmarshal [0x01, 0, 0, 0, 0, 0, 0, 0, 0, 0, 0, 0x01] =
      .ok (some ({ version := 0, control_flag := false, critical_flag := false,
                   protocol := 0, vni := 0, options := some [],
                   options_len := 4 }, 8)) ∧
    (8 : Nat) ≠ 8 + 4 := by
  refine ⟨?_, by decide⟩
  rw [Header.unmarshal_eq_exec]
  decide

/-- C4 (amended): when the declared option area is nonzero, fits the
buffer, and is at most 244 bytes (above that the u8 wraparound panics),
the decode loop parses options greedily and **always succeeds**: it stops
at the first option that fails to decode (for instance one whose declared
data reaches past the area), returning the options collected so far and
a cursor `8 + optsLen opts ≤ 8 + declared`; the whole decode never fails
because of the option-area contents. -/
theorem c4_option_area_parsing (buffer : List Nat)
    (hlen : buffer.length ≥ 8)
    (hv : byteAt buffer 0 >>> 6 = 0)
    (h0 : (byteAt buffer 0 &&& 63) * 4 ≠ 0)
    (h8 : (byteAt buffer 0 &&& 63) * 4 ≤ buffer.length - 8)
    (h244 : (byteAt buffer 0 &&& 63) * 4 ≤ 244) :
    ∃ opts cur, Header.unmarshal buffer =
      .ok (some ({ version := 0,
                   control_flag := byteAt buffer 1 >>> 7 == 1,
                   critical_flag := (byteAt buffer 1 &&& 0x40) >>> 6 == 1,
                   protocol := byteAt buffer 2 * 256 + byteAt buffer 3,
                   vni := byteAt buffer 4 * 65536 + byteAt buffer 5 * 256 + byteAt buffer 6,
                   options := some opts,
                   options_len := (byteAt buffer 0 &&& 63) * 4 }, cur)) ∧
      8 ≤ cur ∧ cur ≤ 8 + (byteAt buffer 0 &&& 63) * 4 ∧ cur = 8 + optsLen opts := by
  have hend : ((byteAt buffer 0 &&& 63) * 4 + 8) % 256 = (byteAt buffer 0 &&& 63) * 4 + 8 := by
    omega
  obtain ⟨opts, fin, hp, hc, hf, hsum⟩ :=
    Header.parseOptions_spec buffer ((byteAt buffer 0 &&& 63) * 4 + 8) 8
      (by omega) (by omega)
  refine ⟨opts, fin, ?_, by omega, by omega, by omega⟩
  unfold Header.unmarshal
  rw [if_pos (by simpa [MIN_GENEVE_HDR] using hlen), if_neg (by simpa using hv)]
  simp only [MIN_GENEVE_HDR]
  rw [if_neg h0, if_pos h8, hend, hp]

/-- C4 (witness): the amended statement at the counterexample buffer —
the loop collects zero options and stops with cursor 8. -/
theorem c4_option_area_parsing_witness :
    ∃ opts cur, Header.unmarshal [0x01, 0, 0, 0, 0, 0, 0, 0, 0, 0, 0, 0x01] =
      .ok (some ({ version := 0, control_flag := false, critical_flag := false,
                   protocol := 0, vni := 0, options := some opts,
                   options_len := 4 }, cur)) ∧
      8 ≤ cur ∧ cur ≤ 8 + 4 ∧ cur = 8 + optsLen opts := by
  have h := c4_option_area_parsing [0x01, 0, 0, 0, 0, 0, 0, 0, 0, 0, 0, 0x01]
    (by decide) (by decide) (by decide) (by decide) (by decide)
  simpa using h

/-! ## Claim C8 — packet-level error mapping -/

/-- With version 0 and no panic (declared area below 248 bytes or not
covered by the buffer), `Header::unmarshal` always returns `Some`. -/
theorem Header.unmarshal_total (buffer : List Nat)
    (hlen : buffer.length ≥ 8)
    (hv : byteAt buffer 0 >>> 6 = 0)
    (hnp : ¬(248 ≤ (byteAt buffer 0 &&& 63) * 4 ∧
             (byteAt buffer 0 &&& 63) * 4 ≤ buffer.length - 8)) :
    ∃ h cur, Header.unmarshal buffer = .ok (some (h, cur)) := by
  unfold Header.unmarshal
  rw [if_pos (by simpa [MIN_GENEVE_HDR] using hlen), if_neg (by simpa using hv)]
  simp only [MIN_GENEVE_HDR]
  by_cases h0 : (byteAt buffer 0 &&& 63) * 4 = 0
  · rw [if_pos h0]
    exact ⟨_, _, rfl⟩
  · rw [if_neg h0]
    by_cases h8 : (byteAt buffer 0 &&& 63) * 4 ≤ buffer.length - 8
    · rw [if_pos h8]
      have h244 : (byteAt buffer 0 &&& 63) * 4 ≤ 244 := by
        have := optarea_le_252 (byteAt buffer 0)
        have hm4 : ((byteAt buffer 0 &&& 63) * 4) % 4 = 0 := by omega
        omega
      have hend : ((byteAt buffer 0 &&& 63) * 4 + 8) % 256 =
          (byteAt buffer 0 &&& 63) * 4 + 8 := by omega
      obtain ⟨opts, fin, hp, _, _, _⟩ :=
        Header.parseOptions_spec buffer ((byteAt buffer 0 &&& 63) * 4 + 8) 8
          (by omega) (by omega)
      rw [hend, hp]
      exact ⟨_, _, rfl⟩
    · rw [if_neg h8]
      exact ⟨_, _, rfl⟩

/-- With a nonzero version field, `Header::unmarshal` returns `None`. -/
theorem Header.unmarshal_version_ne (buffer : List Nat)
    (hlen : buffer.length ≥ 8)
    (hv : byteAt buffer 0 >>> 6 ≠ 0) :
    Header.unmarshal buffer = .ok none := by
  unfold Header.unmarshal
  rw [if_pos (by simpa [MIN_GENEVE_HDR] using hlen), if_pos (by simpa using hv)]

/-- C8 (counterexample): a 256-byte buffer whose first byte 0x3e declares a
248-byte option area that the buffer covers; the slice bound wraps to 0
and the packet decode panics instead of returning `InvalidLength`,
`NotGeneve`, or a packet. -/
theorem c8_error_mapping_cx :
    GenevePacket.unmarshal (0x3e :: List.replicate 255 0) = .error () := by
  unfold GenevePacket.unmarshal
  rw [Header.unmarshal_eq_exec]
  decide

/-- C8 (amended): `GenevePacket::unmarshal` returns `InvalidLength` exactly
when the input is shorter than 8 bytes; on inputs of at least 8 bytes
that do not hit the option-area panic (version 0, declared area of 248 or
252 bytes, buffer covering it), it returns `NotGeneve` exactly when the
version field is nonzero, and otherwise succeeds with `payload` the full
original buffer. -/
theorem c8_error_mapping (buffer : List Nat) :
    (GenevePacket.unmarshal buffer = .ok (.error .InvalidLength) ↔ buffer.length < 8) ∧
    (buffer.length ≥ 8 →
      ¬(byteAt buffer 0 >>> 6 = 0 ∧ 248 ≤ (byteAt buffer 0 &&& 63) * 4 ∧
        (byteAt buffer 0 &&& 63) * 4 ≤ buffer.length - 8) →
      ((GenevePacket.unmarshal buffer = .ok (.error .NotGeneve) ↔
          byteAt buffer 0 >>> 6 ≠ 0) ∧
       (byteAt buffer 0 >>> 6 = 0 →
          ∃ h cur, GenevePacket.unmarshal buffer = .ok (.ok ⟨h, cur, buffer⟩)))) := by
  constructor
  · constructor
    · intro hIL
      by_contra hlen
      unfold GenevePacket.unmarshal at hIL
      rw [if_pos (by simpa [MIN_GENEVE_HDR] using Nat.le_of_not_lt hlen)] at hIL
      rcases hh : Header.unmarshal buffer with u | r
      · rw [hh] at hIL; cases hIL
      · rcases r with _ | ⟨i, cur⟩ <;> rw [hh] at hIL <;> cases hIL
    · intro hlen
      unfold GenevePacket.unmarshal
      rw [if_neg (by simp [MIN_GENEVE_HDR]; omega)]
  · intro hlen hnp
    by_cases hv : byteAt buffer 0 >>> 6 = 0
    · have hnp' : ¬(248 ≤ (byteAt buffer 0 &&& 63) * 4 ∧
          (byteAt buffer 0 &&& 63) * 4 ≤ buffer.length - 8) := by
        intro hc
        exact hnp ⟨hv, hc⟩
      obtain ⟨h, cur, hh⟩ := Header.unmarshal_total buffer hlen hv hnp'
      constructor
      · constructor
        · intro hNG
          unfold GenevePacket.unmarshal at hNG
          rw [if_pos (by simpa [MIN_GENEVE_HDR] using hlen), hh] at hNG
          cases hNG
        · intro hvv
          exact absurd hv hvv
      · intro _
        refine ⟨h, cur, ?_⟩
        unfold GenevePacket.unmarshal
        rw [if_pos (by simpa [MIN_GENEVE_HDR] using hlen), hh]
    · have hh := Header.unmarshal_version_ne buffer hlen hv
      constructor
      · constructor
        · intro _
          exact hv
        · intro _
          unfold GenevePacket.unmarshal
          rw [if_pos (by simpa [MIN_GENEVE_HDR] using hlen), hh]
      · intro hvv
        exact absurd hvv hv

/-- C8 (witness): the amended trichotomy at two concrete buffers — an
8-byte all-zero buffer decodes to a packet whose payload is the buffer
itself, and a version-1 buffer maps to `NotGeneve`. -/
theorem c8_error_mapping_witness :
    (∃ h cur, GenevePacket.unmarshal [0, 0, 0, 0, 0, 0, 0, 0] =
       .ok (.ok ⟨h, cur, [0, 0, 0, 0, 0, 0, 0, 0]⟩)) ∧
    (GenevePacket.unmarshal [0x40, 0, 0, 0, 0, 0, 0, 0] = .ok (.error .NotGeneve)) ∧
    ¬(GenevePacket.unmarshal [0, 0, 0, 0, 0, 0, 0] = .ok (.error .InvalidLength) ↔ False) := by
  refine ⟨(c8_error_mapping [0, 0, 0, 0, 0, 0, 0, 0]).2 (by decide) (by decide)
    |>.2 (by decide), ?_, ?_⟩
  · exact ((c8_error_mapping [0x40, 0, 0, 0, 0, 0, 0, 0]).2 (by decide)
      (by decide)).1.mpr (by decide)
  · intro hcon
    have := (c8_error_mapping [0, 0, 0, 0, 0, 0, 0]).1
    rw [hcon] at this
    simp at this

/-! ## Claim C5 — no partial writes on slice-target encode failures -/

/-- An in-bounds `copy_from_slice` preserves the buffer length. -/
theorem copyFromSlice_length {buffer src : List Nat} {start : Nat}
    (h : start + src.length ≤ buffer.length) :
    (copyFromSlice buffer start src).length = buffer.length := by
  simp [copyFromSlice]
  omega

/-- `TunnelOption::marshal_to_slice` either leaves the buffer untouched or
returns `Ok`: its two `InvalidLength` checks precede every write. -/
theorem TunnelOption.marshal_to_slice_cases (o : TunnelOption) (buffer : List Nat) :
    (o.marshal_to_slice buffer).2 = buffer ∨ ∃ n, (o.marshal_to_slice buffer).1 = .ok n := by
  obtain ⟨c, t, cf, dopt⟩ := o
  rcases dopt with _ | d <;>
    unfold TunnelOption.marshal_to_slice <;>
    split
  · left; rfl
  · split
    · left; rfl
    · simp only [TunnelOption.encode_opt]
      right; exact ⟨_, rfl⟩
  · left; rfl
  · split
    · left; rfl
    · simp only [TunnelOption.encode_opt]
      right; exact ⟨_, rfl⟩

/-- On failure, `TunnelOption::marshal_to_slice` has not modified the
destination buffer. -/
theorem TunnelOption.marshal_to_slice_err_opt (o : TunnelOption) (buffer : List Nat)
    (e : GeneveErr) (h : (o.marshal_to_slice buffer).1 = .error e) :
    (o.marshal_to_slice buffer).2 = buffer := by
  rcases TunnelOption.marshal_to_slice_cases o buffer with h2 | ⟨n, hok⟩
  · exact h2
  · rw [hok] at h
    cases h

/-- A valid option (data ≤ 128 bytes) with room in the buffer writes
exactly `opt_len()` bytes and keeps the buffer length. -/
theorem TunnelOption.marshal_to_slice_ok_opt (o : TunnelOption) (buffer : List Nat)
    (hd : o.data_len ≤ 128) (hl : o.opt_len ≤ buffer.length) :
    (o.marshal_to_slice buffer).1 = .ok o.opt_len ∧
    (o.marshal_to_slice buffer).2.length = buffer.length := by
  obtain ⟨c, t, cf, dopt⟩ := o
  rcases dopt with _ | d
  · have ho : (⟨c, t, cf, none⟩ : TunnelOption).opt_len = 4 := by
      simp [TunnelOption.opt_len, TunnelOption.data_len, TunnelOption.MIN_OPT_SIZE]
    rw [ho] at hl
    unfold TunnelOption.marshal_to_slice
    rw [if_neg (by simp [TunnelOption.data_len, TunnelOption.MAX_DATA_SIZE]),
        if_neg (by rw [ho]; omega)]
    simp only [TunnelOption.encode_opt]
    exact ⟨by rw [ho]; simp, copyFromSlice_length (by simpa using hl)⟩
  · have hdl : (⟨c, t, cf, some d⟩ : TunnelOption).data_len = d.length := rfl
    have hol : (⟨c, t, cf, some d⟩ : TunnelOption).opt_len =
        4 + d.length + ((⟨c, t, cf, some d⟩ : TunnelOption).opt_len - 4 - d.length) := by
      simp only [TunnelOption.opt_len, TunnelOption.data_len, TunnelOption.MIN_OPT_SIZE]
      split <;> omega
    unfold TunnelOption.marshal_to_slice
    rw [if_neg (by rw [hdl] at hd ⊢; simp [TunnelOption.MAX_DATA_SIZE]; omega),
        if_neg (by omega)]
    simp only [TunnelOption.encode_opt, hdl]
    have hlen1 : (copyFromSlice buffer 0
        [c / 256 % 256, c % 256, t ||| if cf then 128 else 0,
         (d.length % 256 + 3) / 4]).length = buffer.length :=
      copyFromSlice_length (by simp; omega)
    have hlen2 : (copyFromSlice (copyFromSlice buffer 0
        [c / 256 % 256, c % 256, t ||| if cf then 128 else 0,
         (d.length % 256 + 3) / 4]) 4 d).length = buffer.length := by
      rw [copyFromSlice_length, hlen1]
      rw [hlen1]
      omega
    constructor
    · simp only [List.length_cons, List.length_nil]
      exact congrArg Except.ok (by omega)
    · rw [copyFromSlice_length]
      · simpa using hlen2
      · simp only [List.length_replicate, hlen2]
        simp
        omega

/-- The option loop of `Header::marshal_to_slice` succeeds whenever each
option's data fits and the buffer has room for `pos + optsLen opts`. -/
theorem Header.marshalOptsSlice_ok :
    ∀ (opts : List TunnelOption) (buffer : List Nat) (pos : Nat),
      (∀ o ∈ opts, o.data_len ≤ 128) →
      pos + optsLen opts ≤ buffer.length →
      (Header.marshalOptsSlice opts buffer pos).1 = .ok (pos + optsLen opts) ∧
      (Header.marshalOptsSlice opts buffer pos).2.length = buffer.length := by
  intro opts
  induction opts with
  | nil =>
    intro buffer pos _ _
    exact ⟨by simp [Header.marshalOptsSlice, optsLen], by simp [Header.marshalOptsSlice]⟩
  | cons o rest ih =>
    intro buffer pos hall hlen
    simp only [optsLen] at hlen
    have ho : o.data_len ≤ 128 := hall o (by simp)
    have hrest : ∀ x ∈ rest, x.data_len ≤ 128 := fun x hx => hall x (by simp [hx])
    have hol : o.opt_len ≤ (buffer.drop pos).length := by
      simp only [List.length_drop]
      omega
    have hsub := TunnelOption.marshal_to_slice_ok_opt o (buffer.drop pos) ho hol
    rcases hms : o.marshal_to_slice (buffer.drop pos) with ⟨res, sub⟩
    rw [hms] at hsub
    simp only at hsub
    rcases hsub with ⟨hres, hsublen⟩
    subst hres
    have hlen2 : (buffer.take pos ++ sub).length = buffer.length := by
      simp only [List.length_append, List.length_take, hsublen, List.length_drop]
      omega
    have hrec := ih (buffer.take pos ++ sub) (pos + o.opt_len) hrest
      (by rw [hlen2]; omega)
    unfold Header.marshalOptsSlice
    simp only [hms]
    rw [hlen2] at hrec
    refine ⟨?_, hrec.2⟩
    rw [hrec.1]
    exact congrArg Except.ok (by simp only [optsLen]; omega)

/-- `Header::encode_header` is always 8 bytes. -/
theorem Header.encode_header_length (h : Header) : h.encode_header.length = 8 := by
  simp [Header.encode_header]

/-- When every option's data fits, `Header::marshal_to_slice` on a buffer of
at least `header_len()` bytes succeeds, writing `header_len()` bytes. -/
theorem Header.marshal_to_slice_ok_hdr (h : Header) (buffer : List Nat)
    (hopt : ∀ l, h.options = some l → ∀ o ∈ l, o.data_len ≤ 128)
    (hl : h.header_len ≤ buffer.length) :
    (h.marshal_to_slice buffer).1 = .ok h.header_len ∧
    (h.marshal_to_slice buffer).2.length = buffer.length := by
  have h8 : 8 ≤ buffer.length := by
    have : 8 ≤ h.header_len := by simp [Header.header_len, Header.MIN_SIZE]
    omega
  have hlen0 : (copyFromSlice buffer 0 h.encode_header).length = buffer.length :=
    copyFromSlice_length (by rw [Header.encode_header_length]; omega)
  simp only [Header.marshal_to_slice]
  rw [if_neg (by omega)]
  rcases ho : h.options with _ | l
  · have : h.header_len = 8 := by
      simp [Header.header_len, Header.opt_len, ho, Header.MIN_SIZE]
    rw [this]
    exact ⟨rfl, hlen0⟩
  · have hhl : h.header_len = 8 + optsLen l := by
      simp [Header.header_len, Header.opt_len, ho, optsLen_eq_foldl, Header.MIN_SIZE]
    have hms := Header.marshalOptsSlice_ok l (copyFromSlice buffer 0 h.encode_header) 8
      (hopt l ho) (by rw [hlen0]; omega)
    rw [hlen0] at hms
    refine ⟨?_, hms.2⟩
    rw [show Header.MIN_SIZE = 8 from rfl, hms.1, hhl]

/-- On failure with well-formed options, `Header::marshal_to_slice` has not
modified the destination: only the up-front size check can fail. -/
theorem Header.marshal_to_slice_err_hdr (h : Header) (buffer : List Nat) (e : GeneveErr)
    (hopt : ∀ l, h.options = some l → ∀ o ∈ l, o.data_len ≤ 128)
    (herr : (h.marshal_to_slice buffer).1 = .error e) :
    (h.marshal_to_slice buffer).2 = buffer := by
  by_cases hsz : buffer.length < h.header_len
  · simp only [Header.marshal_to_slice]
    rw [if_pos hsz]
  · have := (Header.marshal_to_slice_ok_hdr h buffer hopt (by omega)).1
    rw [this] at herr
    cases herr

/-- On failure with well-formed options, `GenevePacket::marshal_to_slice`
has not modified the destination. -/
theorem GenevePacket.marshal_to_slice_err_pkt (p : GenevePacket) (buffer : List Nat)
    (e : GeneveErr)
    (hopt : ∀ l, p.hdr.options = some l → ∀ o ∈ l, o.data_len ≤ 128)
    (herr : (p.marshal_to_slice buffer).1 = .error e) :
    (p.marshal_to_slice buffer).2 = buffer := by
  by_cases hsz : buffer.length < p.hdr.header_len + (p.payload.drop p.offset).length
  · simp only [GenevePacket.marshal_to_slice]
    rw [if_pos hsz]
  · have hok := Header.marshal_to_slice_ok_hdr p.hdr buffer hopt (by omega)
    rcases hms : p.hdr.marshal_to_slice buffer with ⟨res, buf2⟩
    rw [hms] at hok
    simp only at hok
    rcases hok with ⟨hres, _⟩
    subst hres
    simp only [GenevePacket.marshal_to_slice, hms] at herr
    rw [if_neg hsz] at herr
    simp at herr

/-- C5 (counterexample): a header containing one option with 129 bytes of
data (over the 128-byte maximum) on a 200-byte destination: the size
pre-check passes (`header_len` 144), the 8 fixed header bytes are
written, and only then does the option's data-length check fail — the
call returns `InvalidLength` with the buffer modified. -/
theorem c5_partial_write_cx :
    (Header.marshal_to_slice
       ⟨0, false, false, 0, 0, some [⟨0, 0, false, some (List.replicate 129 1)⟩], 0⟩
       (List.replicate 200 0xaa)).1 = .error .InvalidLength ∧
    (Header.marshal_to_slice
       ⟨0, false, false, 0, 0, some [⟨0, 0, false, some (List.replicate 129 1)⟩], 0⟩
       (List.replicate 200 0xaa)).2 =
      [34, 0, 0, 0, 0, 0, 0, 0] ++ List.replicate 192 0xaa ∧
    ([34, 0, 0, 0, 0, 0, 0, 0] ++ List.replicate 192 (0xaa : Nat)) ≠
      List.replicate 200 0xaa := by decide

/-- C5 (amended): `TunnelOption::marshal_to_slice` never modifies the
destination on failure; `Header::marshal_to_slice` and
`GenevePacket::marshal_to_slice` never modify it on failure **provided
every option's data is at most 128 bytes** (then only the up-front size
check can fail) — but when an option's data exceeds 128 bytes the error
surfaces only after the fixed header (and any earlier options) have been
written. -/
theorem c5_no_partial_writes :
    (∀ (o : TunnelOption) (buffer : List Nat) (e : GeneveErr),
       (o.marshal_to_slice buffer).1 = .error e →
       (o.marshal_to_slice buffer).2 = buffer) ∧
    (∀ (h : Header) (buffer : List Nat) (e : GeneveErr),
       (∀ l, h.options = some l → ∀ o ∈ l, o.data_len ≤ 128) →
       (h.marshal_to_slice buffer).1 = .error e →
       (h.marshal_to_slice buffer).2 = buffer) ∧
    (∀ (p : GenevePacket) (buffer : List Nat) (e : GeneveErr),
       (∀ l, p.hdr.options = some l → ∀ o ∈ l, o.data_len ≤ 128) →
       (p.marshal_to_slice buffer).1 = .error e →
       (p.marshal_to_slice buffer).2 = buffer) :=
  ⟨TunnelOption.marshal_to_slice_err_opt, Header.marshal_to_slice_err_hdr,
   GenevePacket.marshal_to_slice_err_pkt⟩

/-- C5 (witness): the amended statement applied to a too-small destination —
an option with 64 bytes of data into a 32-byte buffer fails with
`InvalidLength` and the buffer is returned bit-for-bit unchanged. -/
theorem c5_no_partial_writes_witness :
    (TunnelOption.marshal_to_slice ⟨0xffff, 0x0a, false, some (List.replicate 64 1)⟩
       (List.replicate 32 7)).1 = .error .InvalidLength ∧
    (TunnelOption.marshal_to_slice ⟨0xffff, 0x0a, false, some (List.replicate 64 1)⟩
       (List.replicate 32 7)).2 = List.replicate 32 7 := by
  refine ⟨by decide, ?_⟩
  exact c5_no_partial_writes.1 ⟨0xffff, 0x0a, false, some (List.replicate 64 1)⟩
    (List.replicate 32 7) .InvalidLength (by decide)

/-! ## Claim C6 — header round-trip -/

theorem wireOptsBytes_length : ∀ l : List TunnelOption,
    (wireOptsBytes l).length = optsLen l := by
  intro l
  induction l with
  | nil => rfl
  | cons o rest ih => simp [wireOptsBytes, optsLen, TunnelOption.wireBytes_length, ih]

/-- Wire-valid options have no padding: `opt_len = 4 + data_len` with the
data length a multiple of 4 of at most 124. -/
theorem TunnelOption.wireValid_opt_len {o : TunnelOption} (hw : o.wireValid) :
    o.opt_len = 4 + o.data_len ∧ o.data_len % 4 = 0 ∧ o.data_len ≤ 124 := by
  obtain ⟨_, _, hd⟩ := hw
  rcases hod : o.data with _ | d
  · simp [TunnelOption.opt_len, TunnelOption.data_len, TunnelOption.MIN_OPT_SIZE, hod]
  · rw [hod] at hd
    obtain ⟨h4, hpos, h124⟩ := hd
    simp only [TunnelOption.opt_len, TunnelOption.data_len, TunnelOption.MIN_OPT_SIZE, hod]
    constructor
    · split <;> omega
    · omega

theorem optsLen_mod4 : ∀ l : List TunnelOption, (∀ o ∈ l, o.wireValid) →
    optsLen l % 4 = 0 := by
  intro l
  induction l with
  | nil => intro _; rfl
  | cons o rest ih =>
    intro hall
    have h1 := TunnelOption.wireValid_opt_len (hall o (by simp))
    have h2 := ih (fun x hx => hall x (by simp [hx]))
    simp only [optsLen]
    omega

theorem opt_len_ge_4 (o : TunnelOption) : 4 ≤ o.opt_len := by
  simp only [TunnelOption.opt_len, TunnelOption.MIN_OPT_SIZE]
  omega

theorem optsLen_pos {l : List TunnelOption} (hne : l ≠ []) : 4 ≤ optsLen l := by
  rcases l with _ | ⟨o, rest⟩
  · exact absurd rfl hne
  · have := opt_len_ge_4 o
    simp only [optsLen]
    omega

/-- Decoding a wire-valid option's encoding (followed by anything) yields
exactly that option, and its `advance()` equals its `opt_len()`. -/
theorem TunnelOption.unmarshal_wire (o : TunnelOption) (tail : List Nat)
    (hw : o.wireValid) :
    TunnelOption.unmarshal (o.wireBytes ++ tail) = some o ∧ o.advance = o.opt_len := by
  obtain ⟨c, t, cf, dopt⟩ := o
  obtain ⟨hc, ht, hd⟩ := hw
  simp only at hc ht
  have hbyte2 : 127 &&& (t ||| if cf then 128 else 0) = t ∧
      (((t ||| if cf then 128 else 0) >>> 7 == 1) = cf) := by
    rcases cf with _ | _
    · simpa using ⟨((bitFacts.1 t ht).2.2.1), by simp [(bitFacts.1 t ht).2.2.2]⟩
    · exact ⟨(bitFacts.1 t ht).1, by simp [(bitFacts.1 t ht).2.1]⟩
  have hcsplit : c / 256 % 256 * 256 + c % 256 = c := by omega
  rcases dopt with _ | d
  · constructor
    · simp only [TunnelOption.wireBytes, TunnelOption.data_len, TunnelOption.unmarshal,
                 byteAt, List.cons_append, List.nil_append]
      norm_num
      exact ⟨hcsplit, hbyte2.1, hbyte2.2⟩
    · simp [TunnelOption.advance, TunnelOption.opt_len, TunnelOption.data_len,
            TunnelOption.MIN_OPT_SIZE]
  · obtain ⟨h4, hpos, h124⟩ := hd
    have hb3 : d.length % 256 = d.length := Nat.mod_eq_of_lt (by omega)
    have hpad : (⟨c, t, cf, some d⟩ : TunnelOption).opt_len - 4 - d.length = 0 := by
      simp only [TunnelOption.opt_len, TunnelOption.data_len, TunnelOption.MIN_OPT_SIZE]
      rw [if_neg (by omega)]
      omega
    have hb3v : (d.length + 3) / 4 < 32 := by omega
    have hmask := bitFacts.2.1 _ hb3v
    have hi : (d.length + 3) / 4 * 4 = d.length := by omega
    constructor
    · simp only [TunnelOption.wireBytes, TunnelOption.data_len, TunnelOption.unmarshal,
                 byteAt, hb3, hpad, List.replicate_zero, List.append_nil,
                 List.cons_append, List.nil_append]
      rw [if_pos (by simp <;> omega)]
      simp only [List.getD_cons_succ, List.getD_cons_zero]
      rw [hmask, hi]
      rw [if_neg (by omega)]
      rw [if_pos (by simp <;> omega)]
      simp only [List.drop_succ_cons, List.drop_zero]
      rw [List.take_left]
      rw [hcsplit, hbyte2.1, hbyte2.2]
    · simp only [TunnelOption.advance, TunnelOption.opt_len, TunnelOption.data_len,
                 TunnelOption.MIN_OPT_SIZE]
      rw [if_pos h4]
      rw [if_neg (by omega)]
      omega

/-- The header decode loop run over the exact concatenation of wire-valid
option encodings returns precisely those options, consuming everything. -/
theorem Header.parseOptions_wire :
    ∀ (l : List TunnelOption) (pre : List Nat),
      (∀ o ∈ l, o.wireValid) →
      Header.parseOptions (pre ++ wireOptsBytes l) (pre.length + optsLen l) pre.length =
        .ok (l, pre.length + optsLen l) := by
  intro l
  induction l with
  | nil =>
    intro pre _
    simp only [wireOptsBytes, optsLen, List.append_nil, Nat.add_zero]
    rw [Header.parseOptions_step]
    have hsr : sliceRange pre pre.length pre.length = .ok [] := by
      unfold sliceRange
      rw [if_pos ⟨Nat.le_refl _, Nat.le_refl _⟩]
      simp
    simp only [hsr]
    have hnone : TunnelOption.unmarshal [] = none := rfl
    simp only [hnone]
  | cons o rest ih =>
    intro pre hall
    have ho := hall o (by simp)
    have hrest : ∀ x ∈ rest, x.wireValid := fun x hx => hall x (by simp [hx])
    have hwlen := TunnelOption.wireBytes_length o
    have hrlen := wireOptsBytes_length rest
    simp only [wireOptsBytes, optsLen]
    have hsr : sliceRange (pre ++ (o.wireBytes ++ wireOptsBytes rest)) pre.length
        (pre.length + (o.opt_len + optsLen rest)) =
        .ok (o.wireBytes ++ wireOptsBytes rest) := by
      unfold sliceRange
      rw [if_pos ⟨by omega, by simp [hwlen, hrlen]⟩]
      rw [List.drop_left, Nat.add_sub_cancel_left]
      exact congrArg Except.ok (List.take_of_length_le (by simp [hwlen, hrlen]))
    have hw := TunnelOption.unmarshal_wire o (wireOptsBytes rest) ho
    rw [Header.parseOptions_step]
    simp only [hsr, hw.1, hw.2]
    have ihx := ih (pre ++ o.wireBytes) hrest
    rw [List.append_assoc, List.length_append, hwlen] at ihx
    rw [Nat.add_assoc] at ihx
    simp only [ihx]

/-- `Header::marshal`'s option loop produces the concatenated wire bytes. -/
theorem Header.marshalOptsVec_eq :
    ∀ (l : List TunnelOption) (buf : List Nat),
      (∀ o ∈ l, o.data_len ≤ 128) →
      Header.marshalOptsVec l buf = .ok (buf ++ wireOptsBytes l) := by
  intro l
  induction l with
  | nil => intro buf _; simp [Header.marshalOptsVec, wireOptsBytes]
  | cons o rest ih =>
    intro buf hall
    unfold Header.marshalOptsVec
    simp only [TunnelOption.marshal_eq o buf (hall o (by simp))]
    rw [ih (buf ++ o.wireBytes) (fun x hx => hall x (by simp [hx]))]
    simp [wireOptsBytes, List.append_assoc]

/-- `Header::marshal` of a wire-valid header emits the fixed 8 bytes
followed by the options' wire bytes. -/
theorem Header.marshal_wire (h : Header) (hw : h.wireValid) :
    Header.marshal h [] = .ok (h.encode_header ++ wireOptsBytes (h.options.getD [])) := by
  obtain ⟨v, cf, crf, p, vn, opts, ol⟩ := h
  rcases hop : opts with _ | l
  · simp [Header.marshal, wireOptsBytes]
  · obtain ⟨_, _, _, hos, _, _⟩ := hw
    rw [hop] at hos
    have hall : ∀ o ∈ l, o.data_len ≤ 128 := by
      intro o hoin
      have := (TunnelOption.wireValid_opt_len (hos.2 o hoin)).2.2
      omega
    simp only [Header.marshal]
    rw [Header.marshalOptsVec_eq l [] hall]
    simp

/-- `Header::unmarshal` of a wire-valid header's encoding reconstructs the
header exactly, with the cursor at the end of the buffer. -/
theorem flagByte_bits (cf crf : Bool) :
    (((match cf, crf with
      | false, false => (0x00 : Nat) | true, false => 0x80
      | false, true => 0x40 | true, true => 0xc0) >>> 7) == 1) = cf ∧
    ((((match cf, crf with
      | false, false => (0x00 : Nat) | true, false => 0x80
      | false, true => 0x40 | true, true => 0xc0) &&& 0x40) >>> 6) == 1) = crf := by
  rcases cf with _ | _ <;> rcases crf with _ | _ <;> exact ⟨by decide, by decide⟩

theorem Header.unmarshal_encode (h : Header) (hw : h.wireValid) :
    Header.unmarshal (h.encode_header ++ wireOptsBytes (h.options.getD [])) =
      .ok (some (h, 8 + h.opt_len)) := by
  obtain ⟨v, cf, crf, p, vn, opts, ol⟩ := h
  obtain ⟨hv, hp, hvn, hos, holen, h244⟩ := hw
  simp only at hv hp hvn hos holen h244
  subst hv
  have hflag1 := (flagByte_bits cf crf).1
  have hflag2 := (flagByte_bits cf crf).2
  have hps : p / 256 % 256 * 256 + p % 256 = p := by omega
  have hvni : vn / 65536 % 256 * 65536 + vn / 256 % 256 * 256 + vn % 256 = vn := by omega
  rcases opts with _ | l
  · -- no options: the buffer is exactly the 8 fixed bytes
    have hS : Header.opt_len ⟨0, cf, crf, p, vn, none, ol⟩ = 0 := by
      simp [Header.opt_len]
    rw [hS] at holen
    subst holen
    rw [hS]
    simp only [Option.getD, wireOptsBytes, List.append_nil]
    unfold Header.unmarshal
    simp only [Header.encode_header, hS]
    norm_num [byteAt, MIN_GENEVE_HDR]
    exact ⟨hflag1, hflag2, hps, hvni⟩
  · -- options present: nonempty, so the declared area is 4..244 bytes
    have hS : Header.opt_len ⟨0, cf, crf, p, vn, some l, ol⟩ = optsLen l := by
      simp [Header.opt_len, optsLen_eq_foldl]
    rw [hS] at holen h244
    subst holen
    rw [hS]
    have hmod := optsLen_mod4 l hos.2
    have hpos := optsLen_pos hos.1
    have hwl := wireOptsBytes_length l
    have hb0 : (0 * 64) % 256 ||| (optsLen l / 4 % 256 &&& 63) = optsLen l / 4 := by
      rw [Nat.mod_eq_of_lt (by omega : optsLen l / 4 < 256),
          bitFacts.2.2 _ (by omega : optsLen l / 4 < 64)]
      simp
    have hmask63 : optsLen l / 4 &&& 63 = optsLen l / 4 :=
      bitFacts.2.2 _ (by omega)
    have hshift : (optsLen l / 4) >>> 6 = 0 := by
      rw [Nat.shiftRight_eq_div_pow]
      omega
    have harea : optsLen l / 4 * 4 = optsLen l := by omega
    unfold Header.unmarshal
    simp only [Header.encode_header, hS, List.cons_append, List.nil_append, byteAt,
               List.getD_cons_succ, List.getD_cons_zero, MIN_GENEVE_HDR, hb0,
               hmask63, harea, hshift, Option.getD_some]
    rw [if_pos (by simp [hwl] <;> omega)]
    rw [if_neg (by simp [hshift])]
    rw [if_neg (by omega)]
    rw [if_pos (by simp [hwl] <;> omega)]
    have hend : (optsLen l + 8) % 256 = 8 + optsLen l := by omega
    rw [hend]
    -- the parse loop over the exact option area
    have hparse := Header.parseOptions_wire l
      (Header.encode_header ⟨0, cf, crf, p, vn, some l, optsLen l⟩) hos.2
    rw [Header.encode_header_length] at hparse
    simp only [Header.encode_header, hS, List.cons_append, List.nil_append,
               hb0] at hparse
    simp only [hparse]
    rw [hflag1, hflag2, hps, hvni]

/-- C6 (counterexample): `decode(encode(h)) = (h, |encode(h)|)` fails for
several headers that are valid in the claim's sense (version 0,
`options_len` equal to the option sum, every data block at most 128
bytes): an empty-but-present option list comes back as `None`;
`vni = 2^24` comes back as 0; non-multiple-of-4 data comes back padded;
an `option_type` with bit 7 set comes back folded into `c_flag`; and a
63-option header (252-byte area) panics on decode. -/
theorem c6_roundtrip_cx :
    (Header.marshal ⟨0, false, false, 0, 0, some [], 0⟩ [] =
       .ok [0, 0, 0, 0, 0, 0, 0, 0] ∧
     Header.unmarshal [0, 0, 0, 0, 0, 0, 0, 0] =
       .ok (some (⟨0, false, false, 0, 0, none, 0⟩, 8)) ∧
     (⟨0, false, false, 0, 0, none, 0⟩ : Header) ≠ ⟨0, false, false, 0, 0, some [], 0⟩) ∧
    (Header.marshal ⟨0, false, false, 0, 16777216, none, 0⟩ [] =
       .ok [0, 0, 0, 0, 0, 0, 0, 0] ∧
     (⟨0, false, false, 0, 0, none, 0⟩ : Header) ≠ ⟨0, false, false, 0, 16777216, none, 0⟩) ∧
    (Header.marshal ⟨0, false, false, 0, 0, some [⟨0, 0, false, some [9, 9]⟩], 8⟩ [] =
       .ok [2, 0, 0, 0, 0, 0, 0, 0, 0, 0, 0, 1, 9, 9, 0, 0] ∧
     Header.unmarshal [2, 0, 0, 0, 0, 0, 0, 0, 0, 0, 0, 1, 9, 9, 0, 0] =
       .ok (some (⟨0, false, false, 0, 0, some [⟨0, 0, false, some [9, 9, 0, 0]⟩], 8⟩, 16)) ∧
     (⟨0, false, false, 0, 0, some [⟨0, 0, false, some [9, 9, 0, 0]⟩], 8⟩ : Header) ≠
       ⟨0, false, false, 0, 0, some [⟨0, 0, false, some [9, 9]⟩], 8⟩) ∧
    (Header.marshal ⟨0, false, false, 0, 0, some [⟨0, 0x80, false, none⟩], 4⟩ [] =
       .ok [1, 0, 0, 0, 0, 0, 0, 0, 0, 0, 0x80, 0] ∧
     Header.unmarshal [1, 0, 0, 0, 0, 0, 0, 0, 0, 0, 0x80, 0] =
       .ok (some (⟨0, false, false, 0, 0, some [⟨0, 0, true, none⟩], 4⟩, 12)) ∧
     (⟨0, false, false, 0, 0, some [⟨0, 0, true, none⟩], 4⟩ : Header) ≠
       ⟨0, false, false, 0, 0, some [⟨0, 0x80, false, none⟩], 4⟩) ∧
    (Header.marshal
       ⟨0, false, false, 0, 0, some (List.replicate 63 ⟨0, 0, false, none⟩), 252⟩ [] =
       .ok (0x3f :: List.replicate 259 0) ∧
     Header.unmarshal (0x3f :: List.replicate 259 0) = .error ()) := by
  refine ⟨⟨by decide, ?_, by decide⟩, ⟨by decide, by decide⟩, ⟨by decide, ?_, by decide⟩,
    ⟨by decide, ?_, by decide⟩, by decide, ?_⟩ <;> rw [Header.unmarshal_eq_exec] <;> decide

/-- C6 (amended): for every wire-valid header — version 0, fields within
their bit widths, `options` absent or a nonempty list of options whose
data is absent or a positive multiple of 4 of at most 124 bytes,
`options_len` equal to the summed `opt_len`, and that sum at most 244 —
`Header::unmarshal` applied to the bytes of `Header::marshal` succeeds
and returns `(h, n)` with `n` the encoded length `8 + opt_len()`.
(Headers outside this set fail the claim: see the counterexample.) -/
theorem c6_header_roundtrip (h : Header) (hw : h.wireValid) :
    Header.marshal h [] = .ok (h.encode_header ++ wireOptsBytes (h.options.getD [])) ∧
    (h.encode_header ++ wireOptsBytes (h.options.getD [])).length = 8 + h.opt_len ∧
    Header.unmarshal (h.encode_header ++ wireOptsBytes (h.options.getD [])) =
      .ok (some (h, 8 + h.opt_len)) := by
  refine ⟨Header.marshal_wire h hw, ?_, Header.unmarshal_encode h hw⟩
  rw [List.length_append, Header.encode_header_length]
  congr 1
  rcases ho : h.options with _ | l
  · simp [Header.opt_len, ho, wireOptsBytes]
  · simp [Header.opt_len, ho, wireOptsBytes_length, optsLen_eq_foldl]

/-- C6 (witness): the amended round-trip at the two-option test-vector
header (`protocol 0x86dd`, `vni 0x00aaaaee`, `options_len 16`). -/
theorem c6_header_roundtrip_witness :
    (Header.wireValid ⟨0, false, false, 0x86dd, 0x00aaaaee,
       some [⟨0xffff, 0x0a, false, some [0x00, 0x01, 0x00, 0x00]⟩,
             ⟨0xffff, 0x0b, false, some [0x00, 0x02, 0x00, 0x00]⟩], 16⟩) ∧
    Header.marshal ⟨0, false, false, 0x86dd, 0x00aaaaee,
       some [⟨0xffff, 0x0a, false, some [0x00, 0x01, 0x00, 0x00]⟩,
             ⟨0xffff, 0x0b, false, some [0x00, 0x02, 0x00, 0x00]⟩], 16⟩ [] =
      .ok [0x04, 0x00, 0x86, 0xdd, 0xaa, 0xaa, 0xee, 0x00,
           0xff, 0xff, 0x0a, 0x01, 0x00, 0x01, 0x00, 0x00,
           0xff, 0xff, 0x0b, 0x01, 0x00, 0x02, 0x00, 0x00] ∧
    Header.unmarshal [0x04, 0x00, 0x86, 0xdd, 0xaa, 0xaa, 0xee, 0x00,
        0xff, 0xff, 0x0a, 0x01, 0x00, 0x01, 0x00, 0x00,
        0xff, 0xff, 0x0b, 0x01, 0x00, 0x02, 0x00, 0x00] =
      .ok (some (⟨0, false, false, 0x86dd, 0x00aaaaee,
        some [⟨0xffff, 0x0a, false, some [0x00, 0x01, 0x00, 0x00]⟩,
              ⟨0xffff, 0x0b, false, some [0x00, 0x02, 0x00, 0x00]⟩], 16⟩, 24)) := by
  have h := c6_header_roundtrip ⟨0, false, false, 0x86dd, 0x00aaaaee,
    some [⟨0xffff, 0x0a, false, some [0x00, 0x01, 0x00, 0x00]⟩,
          ⟨0xffff, 0x0b, false, some [0x00, 0x02, 0x00, 0x00]⟩], 16⟩ (by decide)
  refine ⟨by decide, ?_, ?_⟩
  · rw [h.1]
    decide
  · have h3 := h.2.2
    rw [show (Header.encode_header ⟨0, false, false, 0x86dd, 0x00aaaaee,
        some [⟨0xffff, 0x0a, false, some [0x00, 0x01, 0x00, 0x00]⟩,
              ⟨0xffff, 0x0b, false, some [0x00, 0x02, 0x00, 0x00]⟩], 16⟩ ++
        wireOptsBytes ((⟨0, false, false, 0x86dd, 0x00aaaaee,
        some [⟨0xffff, 0x0a, false, some [0x00, 0x01, 0x00, 0x00]⟩,
              ⟨0xffff, 0x0b, false, some [0x00, 0x02, 0x00, 0x00]⟩], 16⟩ : Header).options.getD [])) =
        [0x04, 0x00, 0x86, 0xdd, 0xaa, 0xaa, 0xee, 0x00,
         0xff, 0xff, 0x0a, 0x01, 0x00, 0x01, 0x00, 0x00,
         0xff, 0xff, 0x0b, 0x01, 0x00, 0x02, 0x00, 0x00] from by decide,
        show 8 + Header.opt_len ⟨0, false, false, 0x86dd, 0x00aaaaee,
          some [⟨0xffff, 0x0a, false, some [0x00, 0x01, 0x00, 0x00]⟩,
                ⟨0xffff, 0x0b, false, some [0x00, 0x02, 0x00, 0x00]⟩], 16⟩ = 24 from by decide] at h3
    exact h3

end Geneve
